import Mathlib

/-!
Verification of the core simulation engine of `traceTM-efreder3.py`, a
breadth-first simulator for nondeterministic single-tape Turing machines.

The embedding is shallow: Python strings become `List Char` (for tape halves)
or `String` (for state labels), the transition dictionary becomes a lookup
function returning a list of triples (Python's `dict.get(key, [])`), and the
parent dictionary `before` becomes a function `Config → Option Config` updated
by pointwise overwrite (Python's `before[k] = v`).  The `while` loop of the
path reconstructor `trace` is not structurally terminating (and indeed need
not terminate), so it carries an explicit fuel parameter; `none` models a run
of the Python code that never returns.
-/

namespace TraceTM

/-- A machine configuration, exactly the tuple `(left, state, right)` built by
`bfs`: the tape strictly left of the head, the current state label, and the
tape from the head rightwards. -/
abbrev Config := List Char × String × List Char

/-- The transition table interface: `transitions.get((state, curr), [])` in the
Python source, i.e. a total lookup returning the (ordered) list of
`(next_state, write, direction)` triples, empty when no rule applies. -/
abbrev Table := String → Char → List (String × Char × Char)

/-- The parent dictionary `before` of `bfs`, viewed through its lookup
interface: `k in before` is `(m k).isSome` and `before[k]` is the stored
value. -/
abbrev ParentMap := Config → Option Config

/-- The empty dictionary `before = {}` at the start of a `bfs` run. -/
def emptyParent : ParentMap := fun _ => none

/-- The dictionary assignment `before[k] = v`: the entry for the key `k`
(a configuration value) is created or overwritten, all other keys keep their
previous entry. -/
def updateParent (m : ParentMap) (k v : Config) : ParentMap :=
  fun x => if x = k then some v else m x

/-- `move(left, right, write_char, direction)` from the source: write
`write_char` at the head cell (`right[0]`; if `right` is empty the written
symbol becomes the whole of `right`), then move the head.  Moving right
advances onto the next recorded cell, materializing a fresh blank when the
head leaves the recorded region; moving left pops the last cell of `left`
onto the front of `right`, except in the degenerate case where the post-write
`right` is empty or the lone blank, in which case `right` collapses to a
single blank and `left` is untouched. -/
def move (left right : List Char) (write_char direction : Char) :
    List Char × List Char :=
  let right1 := if right = [] then [write_char] else write_char :: right.tail
  if direction = 'R' then
    if right1.length > 1 then (left ++ [right1.headD '_'], right1.tail)
    else (left ++ [right1.headD '_'], ['_'])
  else
    if left ≠ [] then
      if right1 = [] ∨ right1 = ['_'] then (left, ['_'])
      else (left.dropLast, left.getLastD '_' :: right1)
    else (left, '_' :: right1)

/-- The body of `trace`'s `while transition in parent` loop, with explicit
fuel bounding the number of parent links followed; the collected list is in
walk order (reconstructed configuration first).  `none` models a loop that
has not reached a parentless configuration within `fuel` steps. -/
def traceAux (parent : ParentMap) : Nat → Config → Option (List Config)
  | 0, t =>
    match parent t with
    | none => some [t]
    | some _ => none
  | fuel + 1, t =>
    match parent t with
    | none => some [t]
    | some p => (traceAux parent fuel p).map (fun l => t :: l)

/-- `trace(transition, parent)` from the source: follow parent links from
`transition` until a configuration with no entry is reached, then reverse the
collected list.  The fuel parameter makes the possibly-divergent `while` loop
total; `none` models divergence. -/
def trace (fuel : Nat) (transition : Config) (parent : ParentMap) :
    Option (List Config) :=
  (traceAux parent fuel transition).map List.reverse

/-- The per-configuration expansion inlined in `bfs` (lines 109-129 of the
source): read the head symbol (blank when `right` is empty), look the pair up
in the table; with no applicable rule produce the single implicit-reject
successor, otherwise one successor per rule via `move`. -/
def expand (transitions : Table) (reject : String)
    (left : List Char) (state : String) (right : List Char) : List Config :=
  let curr := right.headD '_'
  let moves := transitions state curr
  if moves = [] then [(left, reject, right)]
  else moves.map (fun m =>
    let lr := move left right m.2.1 m.2.2
    (lr.1, m.1, lr.2))

/-- The inner `for transition in queue[depth]` loop of `bfs`: scan the
frontier in enqueue order; stop at the first configuration whose state is in
the accept list, skip reject-state configurations, and otherwise append the
expansion to the next level's queue, record a parent entry for every successor
and count one transition per successor.  Returns the accepting configuration
found (if any) together with the next queue, parent map and transition total
at that moment. -/
def scanLevel (accept : List String) (reject : String) (transitions : Table) :
    List Config → List Config → ParentMap → Nat →
    Option Config × List Config × ParentMap × Nat
  | [], nq, before, total => (none, nq, before, total)
  | c :: rest, nq, before, total =>
    if accept.contains c.2.1 then (some c, nq, before, total)
    else if c.2.1 = reject then
      scanLevel accept reject transitions rest nq before total
    else
      let succs := expand transitions reject c.1 c.2.1 c.2.2
      scanLevel accept reject transitions rest (nq ++ succs)
        (succs.foldl (fun b nt => updateParent b nt c) before)
        (total + succs.length)

/-- The `for depth in range(max_steps)` loop of `bfs`, recursing on the
remaining number of levels.  An empty frontier returns the Exhausted outcome
at the current depth; a found accepting configuration returns the Accepted
outcome with the reconstructed path (propagating `none` when `trace`
diverges); otherwise the next level is processed.  When the levels run out
the current depth equals the step bound. -/
def bfsAux (tfuel : Nat) (accept : List String) (reject : String)
    (transitions : Table) :
    Nat → Nat → List Config → ParentMap → Nat →
    Option (Bool × Nat × Nat × List Config)
  | 0, depth, _, _, total => some (false, depth, total, [])
  | remaining + 1, depth, frontier, before, total =>
    if frontier = [] then some (false, depth, total, [])
    else
      match scanLevel accept reject transitions frontier [] before total with
      | (some c, _, before1, total1) =>
        (trace tfuel c before1).map (fun path => (true, depth, total1, path))
      | (none, nq, before1, total1) =>
        bfsAux tfuel accept reject transitions remaining (depth + 1)
          nq before1 total1

/-- The level-0 frontier `queue = [[("", start, input)]]` of `bfs`. -/
def initialFrontier (start : String) (inp : List Char) : List Config :=
  [([], start, inp)]

/-- `bfs(start, accept, reject, transitions, input, max_steps)` from the
source.  `range(max_steps)` runs no iteration for a non-positive bound, in
which case the final `return False, max_steps, total, []` fires immediately;
otherwise the level loop runs.  `tfuel` is the fuel handed to `trace`; a
`none` result models a run in which `trace` never returns. -/
def bfs (tfuel : Nat) (start : String) (accept : List String) (reject : String)
    (transitions : Table) (inp : List Char) (max_steps : Int) :
    Option (Bool × Int × Nat × List Config) :=
  if max_steps ≤ 0 then some (false, max_steps, 0, [])
  else
    (bfsAux tfuel accept reject transitions max_steps.toNat 0
        (initialFrontier start inp) emptyParent 0).map
      (fun r => (r.1, (r.2.1 : Int), r.2.2.1, r.2.2.2))

/-- The table with no rule at all, `transitions = {}`. -/
def emptyTable : Table := fun _ _ => []

/-- A concrete machine used as failing input for the path-reconstruction
termination guarantee: on `a` move right staying in `q0`; on blank either
stay in `q0` moving left (which regenerates the same configuration) or accept.
Each rule list is in source order. -/
def tableLoop : Table := fun s c =>
  if s = "q0" ∧ c = 'a' then [("q0", 'a', 'R')]
  else if s = "q0" ∧ c = '_' then [("q0", '_', 'L'), ("qacc", '_', 'L')]
  else []

/-- The parent dictionary built by `bfs` on `tableLoop` with input `a` at the
moment the accepting configuration is found (depth 2): the entry for
`(a, q0, _)` has been overwritten to point to itself. -/
def beforeLoop : ParentMap :=
  updateParent
    (updateParent
      (updateParent
        (updateParent
          (updateParent emptyParent (['a'], "q0", ['_']) ([], "q0", ['a']))
          (['a'], "q0", ['_']) (['a'], "q0", ['_']))
        (['a'], "qacc", ['_']) (['a'], "q0", ['_']))
      (['a'], "q0", ['_']) (['a'], "q0", ['_']))
    (['a'], "qacc", ['_']) (['a'], "q0", ['_'])

/-- A concrete machine used as failing input for the path-length guarantee:
on `a` the start state branches to `q1` or directly to the accepting state;
from `q1` on blank the machine also accepts, regenerating the accepting
configuration already enqueued at level 1. -/
def tableRegen : Table := fun s c =>
  if s = "q0" ∧ c = 'a' then [("q1", 'a', 'R'), ("qacc", 'a', 'R')]
  else if s = "q1" ∧ c = '_' then [("qacc", '_', 'L')]
  else []

/-- The parent dictionary built by `bfs` on `tableRegen` with input `a` after
level 0 has been expanded: both level-1 configurations point to the initial
one. -/
def beforeRegenLvl1 : ParentMap :=
  updateParent
    (updateParent emptyParent (['a'], "q1", ['_']) ([], "q0", ['a']))
    (['a'], "qacc", ['_']) ([], "q0", ['a'])

/-- Spec-side definition (§4.3 of the design document): the successors of one
full frontier, used to state the shallowest-acceptance property.  It mirrors
the scan branches: an accepting configuration stops the run (contributes
nothing), a reject-state configuration is pruned, every other configuration
contributes its expansion, in frontier order. -/
def levelSuccessors (accept : List String) (reject : String)
    (transitions : Table) (frontier : List Config) : List Config :=
  frontier.flatMap (fun c =>
    if accept.contains c.2.1 then []
    else if c.2.1 = reject then []
    else expand transitions reject c.1 c.2.1 c.2.2)

/-- Spec-side definition: the frontier of BFS level `d` obtained by full
level-by-level expansion from the initial configuration. -/
def levelFrontier (accept : List String) (reject : String)
    (transitions : Table) (init : Config) : Nat → List Config
  | 0 => [init]
  | n + 1 =>
    levelSuccessors accept reject transitions
      (levelFrontier accept reject transitions init n)

/-! ## General lemmas about the embedded operations -/

/-- A self-looping parent entry makes the reconstruction loop run forever:
no amount of fuel suffices. -/
lemma traceAux_selfloop (p : ParentMap) (c : Config) (h : p c = some c) :
    ∀ f, traceAux p f c = none := by
  intro f
  induction f with
  | zero => unfold traceAux; rw [h]
  | succ f ih =>
    unfold traceAux
    rw [h]
    show Option.map (fun l => c :: l) (traceAux p f c) = none
    rw [ih]
    rfl

/-- Reconstruction from a configuration whose parent chain enters a self-loop
diverges for every fuel. -/
lemma traceAux_none_of_selfloop (p : ParentMap) (c c' : Config)
    (h : p c = some c') (h' : p c' = some c') :
    ∀ f, traceAux p f c = none := by
  intro f
  cases f with
  | zero => unfold traceAux; rw [h]
  | succ f =>
    unfold traceAux
    rw [h]
    show Option.map (fun l => c :: l) (traceAux p f c') = none
    rw [traceAux_selfloop p c' h' f]
    rfl

/-- With an empty parent dictionary the reconstruction returns the singleton
path at once, whatever the fuel. -/
lemma trace_emptyParent (f : Nat) (t : Config) :
    trace f t emptyParent = some [t] := by
  cases f <;> rfl

/-- Claim C2: the specification guarantees that the path reconstructor always
terminates because the parent map is acyclic (each entry pointing strictly to
the previous BFS level).  The code violates this: on the machine `tableLoop`
with input `a` a configuration regenerates itself, its parent entry is
overwritten to a self-loop, and the reconstruction started from the accepting
configuration found at depth 2 never returns, whatever the fuel. -/
theorem bfs_trace_nonterminating :
    ∀ tfuel : Nat, bfs tfuel "q0" ["qacc"] "qr" tableLoop ['a'] 10 = none := by
  intro tfuel
  have hloop : beforeLoop (['a'], "q0", ['_']) = some (['a'], "q0", ['_']) := rfl
  have hacc : beforeLoop (['a'], "qacc", ['_']) = some (['a'], "q0", ['_']) := rfl
  have htr : traceAux beforeLoop tfuel (['a'], "qacc", ['_']) = none :=
    traceAux_none_of_selfloop beforeLoop _ _ hacc hloop tfuel
  have hr : bfs tfuel "q0" ["qacc"] "qr" tableLoop ['a'] 10 =
      Option.map (fun r : Bool × Nat × Nat × List Config =>
          (r.1, (r.2.1 : Int), r.2.2.1, r.2.2.2))
        (Option.map (fun path => (true, 2, 5, path))
          (Option.map List.reverse
            (traceAux beforeLoop tfuel (['a'], "qacc", ['_'])))) := rfl
  rw [hr, htr]
  rfl

/-- Claim C3: the specification states that a run reporting Accepted at depth
`d` reconstructs a path of exactly `d + 1` configurations.  The code violates
this: on the machine `tableRegen` with input `a` the accepting configuration
enqueued at level 1 is regenerated by a same-level sibling before the accept
check reaches it, its parent entry is overwritten, and the run reports
Accepted at depth 1 with a path of 3 configurations. -/
theorem bfs_path_length_mismatch :
    bfs 9 "q0" ["qacc"] "qr" tableRegen ['a'] 10 =
      some (true, 1, 3,
        [([], "q0", ['a']), (['a'], "q1", ['_']), (['a'], "qacc", ['_'])]) ∧
    ([([], "q0", ['a']), (['a'], "q1", ['_']),
        (['a'], "qacc", ['_'])] : List Config).length ≠ 1 + 1 :=
  ⟨rfl, by decide⟩

/-- The right half of the tape never comes back empty from a move. -/
lemma move_right_ne_nil (l r : List Char) (w d : Char) :
    (move l r w d).2 ≠ [] := by
  rcases r with _ | ⟨a, rt⟩ <;> by_cases hd : d = 'R' <;>
    simp only [move, hd, if_pos, if_neg, reduceCtorEq, ite_false, ite_true] <;>
    split_ifs <;> simp_all [List.length_pos]

/-- On a live tape (non-empty right half) a move grows the recorded window by
at most one cell. -/
lemma move_growth_of_live (l : List Char) (a : Char) (rt : List Char)
    (w d : Char) :
    (move l (a :: rt) w d).1.length + (move l (a :: rt) w d).2.length ≤
      l.length + (a :: rt).length + 1 := by
  by_cases hd : d = 'R' <;>
    simp only [move, hd, reduceCtorEq, ite_false, ite_true] <;>
    split_ifs <;> simp_all [List.length_dropLast, List.length_pos] <;> omega

/-- Claim C6, counterexample: the claimed growth bound of at most one element
per call fails when the input right sequence is empty — writing on an empty
right half materializes one cell and the move materializes another, growing
the combined length by two. -/
theorem move_growth_cex :
    ¬ ∀ (l r : List Char) (w d : Char),
        (move l r w d).1.length + (move l r w d).2.length ≤
          l.length + r.length + 1 :=
  fun h => absurd (h [] [] 'a' 'R') (by decide)

/-- Claim C6, amended: for every input tape, write symbol and direction,
`move` never fails and the resulting right sequence contains at least one
element; the combined length of the two sequences grows by at most one
element per call whenever the input right sequence is non-empty (the
live-tape invariant of §3). -/
theorem move_never_fails_growth :
    ∀ (l r : List Char) (w d : Char),
      (move l r w d).2 ≠ [] ∧
      (r ≠ [] →
        (move l r w d).1.length + (move l r w d).2.length ≤
          l.length + r.length + 1) := by
  intro l r w d
  refine ⟨move_right_ne_nil l r w d, fun hr => ?_⟩
  rcases r with _ | ⟨a, rt⟩
  · exact absurd rfl hr
  · exact move_growth_of_live l a rt w d

/-- Witness for claim C6 at the concrete live tape `([], "a")`. -/
theorem move_never_fails_growth_witness :
    (['a'] : List Char) ≠ [] ∧
    ((move [] ['a'] 'b' 'R').2 ≠ [] ∧
      (move [] ['a'] 'b' 'R').1.length + (move [] ['a'] 'b' 'R').2.length ≤
        ([] : List Char).length + (['a'] : List Char).length + 1) :=
  ⟨by decide,
    (move_never_fails_growth [] ['a'] 'b' 'R').1,
    (move_never_fails_growth [] ['a'] 'b' 'R').2 (by decide)⟩

/-- Claim C7, counterexample: for the empty input string the level-0 frontier
holds the configuration with an empty right sequence, not a single blank
symbol as claimed. -/
theorem initialFrontier_blank_cex :
    initialFrontier "q0" [] = [([], "q0", [])] ∧
    initialFrontier "q0" [] ≠ [([], "q0", ['_'])] :=
  ⟨rfl, by decide⟩

/-- Claim C7, amended: for every input string the level-0 frontier is exactly
one configuration — empty left sequence, start state, and the input string
itself as the right sequence, even when the input is empty.  A run on the
empty input that accepts immediately reports that raw configuration in its
path; the blank only materializes when the head symbol is read. -/
theorem initialFrontier_keeps_empty_input :
    (∀ (start : String) (inp : List Char),
      initialFrontier start inp = [([], start, inp)]) ∧
    (∀ (start : String) (tr : Table) (tfuel : Nat),
      bfs tfuel start [start] "qr" tr [] 1 =
        some (true, 0, 0, [([], start, [])])) := by
  refine ⟨fun start inp => rfl, fun start tr tfuel => ?_⟩
  unfold bfs
  rw [if_neg (by decide : ¬ (1 : Int) ≤ 0)]
  rw [show (1 : Int).toNat = 0 + 1 from rfl]
  rw [bfsAux]
  rw [if_neg (by simp [initialFrontier] : ¬ initialFrontier start [] = [])]
  rw [show initialFrontier start [] = [([], start, ([] : List Char))] from rfl]
  rw [scanLevel]
  simp [trace_emptyParent]

/-- Claim C8, counterexample: for a negative step bound `bfs` does not report
depth 0 — it reports the bound itself. -/
theorem bfs_negative_bound_cex :
    bfs 0 "q0" [] "qr" emptyTable [] (-1) = some (false, -1, 0, []) ∧
    (-1 : Int) ≠ 0 :=
  ⟨rfl, by decide⟩

/-- Claim C8, amended: for every machine and input string, if `max_steps` is
zero or negative then `bfs` returns an immediate rejection at depth
`max_steps` (so depth 0 exactly when the bound is 0), with zero total
transitions and an empty path. -/
theorem bfs_nonpositive_bound :
    ∀ (tfuel : Nat) (start : String) (accept : List String) (reject : String)
      (tr : Table) (inp : List Char) (ms : Int), ms ≤ 0 →
      bfs tfuel start accept reject tr inp ms = some (false, ms, 0, []) := by
  intro tfuel start accept reject tr inp ms h
  unfold bfs
  rw [if_pos h]

/-- Witness for claim C8 at the concrete bound `-2`. -/
theorem bfs_nonpositive_bound_witness :
    (-2 : Int) ≤ 0 ∧
    bfs 0 "s0" [] "r0" emptyTable [] (-2) = some (false, -2, 0, []) :=
  ⟨by decide, bfs_nonpositive_bound 0 "s0" [] "r0" emptyTable [] (-2) (by decide)⟩

/-- Claim C4: for every tape move with direction Left and non-empty left
sequence, if after the write the right sequence is empty or equals the lone
blank symbol then right collapses to a single blank and the prepend does not
occur (left is returned unchanged, neither shortened nor moved); otherwise
left's last element is prepended to the post-write right sequence and dropped
from left. -/
theorem move_left_degenerate :
    ∀ (left right : List Char) (w : Char), left ≠ [] →
      (((if right = [] then [w] else w :: right.tail) = [] ∨
        (if right = [] then [w] else w :: right.tail) = ['_']) →
          move left right w 'L' = (left, ['_'])) ∧
      (¬((if right = [] then [w] else w :: right.tail) = [] ∨
         (if right = [] then [w] else w :: right.tail) = ['_']) →
          move left right w 'L' =
            (left.dropLast,
              left.getLastD '_' ::
                (if right = [] then [w] else w :: right.tail))) := by
  intro left right w hl
  constructor
  · intro hc
    simp only [move]
    rw [if_neg (show ¬('L' : Char) = 'R' by decide), if_pos hl, if_pos hc]
  · intro hc
    simp only [move]
    rw [if_neg (show ¬('L' : Char) = 'R' by decide), if_pos hl, if_neg hc]

/-- Witness for claim C4: a left move writing blank over the lone blank with a
non-empty left half collapses right and keeps left intact. -/
theorem move_left_degenerate_witness :
    (['a'] : List Char) ≠ [] ∧
    ((if (['_'] : List Char) = [] then ['_'] else '_' :: (['_'] : List Char).tail) = [] ∨
     (if (['_'] : List Char) = [] then ['_'] else '_' :: (['_'] : List Char).tail) = ['_']) ∧
    move ['a'] ['_'] '_' 'L' = (['a'], ['_']) :=
  ⟨by decide, by decide,
    (move_left_degenerate ['a'] ['_'] '_' (by decide)).1 (by decide)⟩

/-- Claim C5: for every expanded configuration whose (state, head symbol)
pair has no entry in the transition table, exactly one successor is produced
— the same tape halves with the state set to the reject state — and
processing that configuration continues the scan with that single successor
enqueued, its parent recorded, and the total-transitions counter incremented
by exactly one. -/
theorem no_rule_implicit_reject :
    ∀ (accept : List String) (reject : String) (tr : Table)
      (l : List Char) (s : String) (r : List Char)
      (rest nq : List Config) (before : ParentMap) (total : Nat),
      accept.contains s = false → s ≠ reject → tr s (r.headD '_') = [] →
      expand tr reject l s r = [(l, reject, r)] ∧
      scanLevel accept reject tr ((l, s, r) :: rest) nq before total =
        scanLevel accept reject tr rest (nq ++ [(l, reject, r)])
          (updateParent before (l, reject, r) (l, s, r)) (total + 1) := by
  intro accept reject tr l s r rest nq before total hacc hrej htr
  have hexp : expand tr reject l s r = [(l, reject, r)] := by
    simp only [expand]
    rw [if_pos htr]
  have hmem : ¬ s ∈ accept := by simpa using hacc
  refine ⟨hexp, ?_⟩
  rw [scanLevel]
  simp [hmem, hrej, hexp]

/-- Witness for claim C5 on the empty table at state `q0` over the empty
tape. -/
theorem no_rule_implicit_reject_witness :
    List.contains [] "q0" = false ∧ ("q0" : String) ≠ "qr" ∧
    emptyTable "q0" (([] : List Char).headD '_') = [] ∧
    (expand emptyTable "qr" [] "q0" [] = [([], "qr", [])] ∧
      scanLevel [] "qr" emptyTable [([], "q0", [])] [] emptyParent 0 =
        scanLevel [] "qr" emptyTable [] ([] ++ [([], "qr", [])])
          (updateParent emptyParent ([], "qr", []) ([], "q0", [])) (0 + 1)) :=
  ⟨rfl, by decide, rfl,
    no_rule_implicit_reject [] "qr" emptyTable [] "q0" [] [] [] emptyParent 0
      rfl (by decide) rfl⟩

/-- Claim C9: the parent map is keyed by configuration value.  Reassigning a
key overwrites its entry with the most recent producer and leaves every other
key unchanged, so at most one parent link is stored per distinct
configuration value; concretely, in the `tableRegen` run the level-1 scan
regenerates the already-recorded accepting configuration and its entry
switches from the initial configuration to the level-1 producer. -/
theorem parentMap_latest_producer :
    (∀ (m : ParentMap) (k v1 v2 : Config),
      updateParent (updateParent m k v1) k v2 k = some v2) ∧
    (∀ (m : ParentMap) (k v k' : Config), k' ≠ k →
      updateParent m k v k' = m k') ∧
    beforeRegenLvl1 (['a'], "qacc", ['_']) = some ([], "q0", ['a']) ∧
    (scanLevel ["qacc"] "qr" tableRegen [(['a'], "q1", ['_'])] []
        beforeRegenLvl1 2).2.2.1 (['a'], "qacc", ['_']) =
      some (['a'], "q1", ['_']) := by
  refine ⟨fun m k v1 v2 => ?_, fun m k v k' h => ?_, rfl, rfl⟩
  · simp [updateParent]
  · simp [updateParent, h]

/-- Witness for claim C9: updating one key leaves a distinct key's (absent)
entry unchanged. -/
theorem parentMap_latest_producer_witness :
    (([], "a", []) : Config) ≠ ([], "b", []) ∧
    updateParent emptyParent ([], "b", []) ([], "c", []) ([], "a", []) =
      emptyParent ([], "a", []) :=
  ⟨by decide,
    parentMap_latest_producer.2.1 emptyParent ([], "b", []) ([], "c", [])
      ([], "a", []) (by decide)⟩

/-- Claim C10: the acceptance check precedes the reject-state check in
frontier processing.  For every configuration whose state is both in the
accept list and equal to the reject state — wherever it stands in a frontier,
at any level, under any scan state — the scan stops with that configuration
reported as the accepting one, instead of taking the reject-pruning branch
(which would continue the scan with no successors).  Concretely, a full run
in which such a configuration only arises mid-run (the implicit-reject
successor of an empty table, with the reject state in the accept set)
terminates with Accepted at depth 1 rather than pruning it. -/
theorem accept_checked_before_reject :
    (∀ (accept : List String) (reject : String) (tr : Table)
       (l : List Char) (s : String) (r : List Char)
       (rest nq : List Config) (before : ParentMap) (total : Nat),
       accept.contains s = true → s = reject →
       scanLevel accept reject tr ((l, s, r) :: rest) nq before total =
         (some (l, s, r), nq, before, total)) ∧
    bfs 1 "q0" ["qr"] "qr" emptyTable ['a'] 5 =
      some (true, 1, 1, [([], "q0", ['a']), ([], "qr", ['a'])]) := by
  refine ⟨fun accept reject tr l s r rest nq before total hacc _ => ?_, rfl⟩
  rw [scanLevel, if_pos hacc]

/-- Witness for claim C10 at a mid-run frontier configuration whose state is
simultaneously accepting and rejecting. -/
theorem accept_checked_before_reject_witness :
    (["qr"] : List String).contains "qr" = true ∧ ("qr" : String) = "qr" ∧
    scanLevel ["qr"] "qr" emptyTable [([], "qr", ['a'])] [] emptyParent 1 =
      (some ([], "qr", ['a']), [], emptyParent, 1) :=
  ⟨by decide, rfl,
    accept_checked_before_reject.1 ["qr"] "qr" emptyTable [] "qr" ['a'] [] []
      emptyParent 1 (by decide) rfl⟩

/-! ## The shallowest-acceptance property of the level loop -/

/-- `List.find?` on a cons whose head satisfies the predicate, with the
predicate given explicitly. -/
lemma find?_cons_pos (p : Config → Bool) (a : Config) (l : List Config)
    (h : p a = true) : List.find? p (a :: l) = some a := by
  rw [List.find?_cons, h]

/-- `List.find?` on a cons whose head fails the predicate, with the
predicate given explicitly. -/
lemma find?_cons_neg (p : Config → Bool) (a : Config) (l : List Config)
    (h : p a = false) : List.find? p (a :: l) = List.find? p l := by
  rw [List.find?_cons, h]

/-- The accepting configuration the scan stops at is the first one of the
frontier, in enqueue order, whose state is in the accept list. -/
lemma scanLevel_found (accept : List String) (reject : String) (tr : Table) :
    ∀ (frontier nq : List Config) (before : ParentMap) (total : Nat),
      (scanLevel accept reject tr frontier nq before total).1 =
        frontier.find? (fun c => accept.contains c.2.1) := by
  intro frontier
  induction frontier with
  | nil => intro nq before total; rfl
  | cons c rest ih =>
    intro nq before total
    rw [scanLevel]
    by_cases hb : accept.contains c.2.1 = true
    · rw [if_pos hb, find?_cons_pos (fun c => accept.contains c.2.1) c rest hb]
    · have hb' : accept.contains c.2.1 = false := by
        revert hb; cases accept.contains c.2.1 <;> simp
      rw [if_neg hb, find?_cons_neg (fun c => accept.contains c.2.1) c rest hb']
      by_cases hrej : c.2.1 = reject
      · rw [if_pos hrej]; exact ih nq before total
      · rw [if_neg hrej]; exact ih _ _ _

/-- When the scan finds no accepting configuration it enqueues exactly the
full successor frontier, in order. -/
lemma scanLevel_no_accept_queue (accept : List String) (reject : String)
    (tr : Table) :
    ∀ (frontier nq : List Config) (before : ParentMap) (total : Nat),
      frontier.find? (fun c => accept.contains c.2.1) = none →
      (scanLevel accept reject tr frontier nq before total).2.1 =
        nq ++ levelSuccessors accept reject tr frontier := by
  intro frontier
  induction frontier with
  | nil => intro nq before total _; simp [scanLevel, levelSuccessors]
  | cons c rest ih =>
    intro nq before total hf
    have hb' : accept.contains c.2.1 = false := by
      by_cases hb : accept.contains c.2.1 = true
      · rw [find?_cons_pos (fun c => accept.contains c.2.1) c rest hb] at hf
        exact absurd hf (by simp)
      · revert hb; cases accept.contains c.2.1 <;> simp
    have hrest : rest.find? (fun c => accept.contains c.2.1) = none := by
      rwa [find?_cons_neg (fun c => accept.contains c.2.1) c rest hb'] at hf
    rw [scanLevel, if_neg (by rw [hb']; decide)]
    by_cases hrej : c.2.1 = reject
    · rw [if_pos hrej, ih nq before total hrest]
      have hls : levelSuccessors accept reject tr (c :: rest) =
          levelSuccessors accept reject tr rest := by
        unfold levelSuccessors
        rw [List.flatMap_cons, if_neg (by rw [hb']; decide), if_pos hrej,
          List.nil_append]
      rw [hls]
    · rw [if_neg hrej]
      have hls : levelSuccessors accept reject tr (c :: rest) =
          expand tr reject c.1 c.2.1 c.2.2 ++
            levelSuccessors accept reject tr rest := by
        unfold levelSuccessors
        rw [List.flatMap_cons, if_neg (by rw [hb']; decide), if_neg hrej]
      rw [hls]
      have hrec := ih (nq ++ expand tr reject c.1 c.2.1 c.2.2)
        (List.foldl (fun b nt => updateParent b nt c) before
          (expand tr reject c.1 c.2.1 c.2.2))
        (total + (expand tr reject c.1 c.2.1 c.2.2).length) hrest
      rw [List.append_assoc] at hrec
      exact hrec

/-- The first element of the unreversed reconstruction is the configuration
the walk started from. -/
lemma traceAux_head (p : ParentMap) :
    ∀ (f : Nat) (t : Config) (l : List Config),
      traceAux p f t = some l → l.head? = some t := by
  intro f t l h
  cases f with
  | zero =>
    rw [traceAux] at h
    cases hp : p t with
    | none => rw [hp] at h; simp at h; rw [← h]; rfl
    | some q => rw [hp] at h; simp at h
  | succ f =>
    rw [traceAux] at h
    cases hp : p t with
    | none => rw [hp] at h; simp at h; rw [← h]; rfl
    | some q =>
      rw [hp] at h
      simp only [Option.map_eq_some'] at h
      obtain ⟨l', _, hl⟩ := h
      rw [← hl]; rfl

/-- A completed reconstruction ends at the configuration it was called on:
the reported path always has the accepting configuration last. -/
lemma trace_getLast (f : Nat) (t : Config) (p : ParentMap) (l : List Config)
    (h : trace f t p = some l) : l.getLast? = some t := by
  unfold trace at h
  rw [Option.map_eq_some'] at h
  obtain ⟨l', hl', hrev⟩ := h
  rw [← hrev, List.getLast?_reverse]
  exact traceAux_head p f t l' hl'

/-- Invariant of the level loop: a run that starts at the frontier of level
`depth` and accepts at level `d` saw no accepting configuration at any level
from `depth` up to `d`, and reports the first accepting configuration of
level `d` as the last element of its path. -/
lemma bfsAux_accept_shallowest (tfuel : Nat) (accept : List String)
    (reject : String) (tr : Table) (init : Config) :
    ∀ (r depth : Nat) (before : ParentMap) (total : Nat) (d tot : Nat)
      (path : List Config),
      bfsAux tfuel accept reject tr r depth
          (levelFrontier accept reject tr init depth) before total =
        some (true, d, tot, path) →
      depth ≤ d ∧
      (∀ k, depth ≤ k → k < d →
        (levelFrontier accept reject tr init k).find?
          (fun c => accept.contains c.2.1) = none) ∧
      (levelFrontier accept reject tr init d).find?
          (fun c => accept.contains c.2.1) = path.getLast? := by
  intro r
  induction r with
  | zero =>
    intro depth before total d tot path h
    rw [bfsAux] at h
    simp at h
  | succ r ih =>
    intro depth before total d tot path h
    rw [bfsAux] at h
    by_cases hemp : levelFrontier accept reject tr init depth = []
    · rw [if_pos hemp] at h; simp at h
    · rw [if_neg hemp] at h
      rcases hscan : scanLevel accept reject tr
          (levelFrontier accept reject tr init depth) [] before total with
        ⟨found, nq, before1, total1⟩
      rw [hscan] at h
      have hfst := scanLevel_found accept reject tr
        (levelFrontier accept reject tr init depth) [] before total
      rw [hscan] at hfst
      cases found with
      | some c =>
        simp only [Option.map_eq_some'] at h
        obtain ⟨p', hp', heq⟩ := h
        obtain ⟨hd, htot, hpath⟩ : depth = d ∧ total1 = tot ∧ p' = path := by
          simpa using heq
        subst hd
        subst hpath
        refine ⟨Nat.le_refl depth, fun k h1 h2 => absurd h2 (by omega), ?_⟩
        rw [← hfst, trace_getLast tfuel c before1 p' hp']
      | none =>
        have hfind : (levelFrontier accept reject tr init depth).find?
            (fun c => accept.contains c.2.1) = none := hfst.symm
        have hnq := scanLevel_no_accept_queue accept reject tr
          (levelFrontier accept reject tr init depth) [] before total hfind
        rw [hscan] at hnq
        have hnq' : nq = levelFrontier accept reject tr init (depth + 1) := by
          simpa [levelFrontier] using hnq
        rw [show (match (none, nq, before1, total1) with
            | (some c, _, before1, total1) =>
              (trace tfuel c before1).map
                (fun path => (true, depth, total1, path))
            | (none, nq, before1, total1) =>
              bfsAux tfuel accept reject tr r (depth + 1) nq before1 total1) =
            bfsAux tfuel accept reject tr r (depth + 1) nq before1 total1
          from rfl, hnq'] at h
        obtain ⟨ha, hb, hc⟩ := ih (depth + 1) before1 total1 d tot path h
        refine ⟨by omega, fun k hk1 hk2 => ?_, hc⟩
        rcases Nat.eq_or_lt_of_le hk1 with heq | hlt
        · rw [← heq]; exact hfind
        · exact hb k hlt hk2

/-- Claim C1: whenever `bfs` reports Accepted at depth `d`, no accepting
configuration exists at any BFS level shallower than `d` (levels given by
full level-by-level expansion from the initial configuration), and the
reported configuration — the last element of the returned path — is the first
accepting configuration of the level-`d` frontier in enqueue order. -/
theorem bfs_accepted_shallowest :
    ∀ (tfuel : Nat) (start : String) (accept : List String) (reject : String)
      (tr : Table) (inp : List Char) (ms d : Int) (tot : Nat)
      (path : List Config),
      bfs tfuel start accept reject tr inp ms = some (true, d, tot, path) →
      ∃ dn : Nat, d = dn ∧
        (∀ k, k < dn →
          ∀ c ∈ levelFrontier accept reject tr ([], start, inp) k,
            accept.contains c.2.1 = false) ∧
        (levelFrontier accept reject tr ([], start, inp) dn).find?
            (fun c => accept.contains c.2.1) = path.getLast? := by
  intro tfuel start accept reject tr inp ms d tot path h
  unfold bfs at h
  by_cases hms : ms ≤ 0
  · rw [if_pos hms] at h; simp at h
  · rw [if_neg hms] at h
    rw [Option.map_eq_some'] at h
    obtain ⟨⟨b, dn, t, p⟩, hb, heq⟩ := h
    obtain ⟨h1, h2, h3, h4⟩ : b = true ∧ (dn : Int) = d ∧ t = tot ∧ p = path := by
      simpa using heq
    rw [h1, h3, h4] at hb
    have hb' : bfsAux tfuel accept reject tr ms.toNat 0
        (levelFrontier accept reject tr ([], start, inp) 0) emptyParent 0 =
        some (true, dn, tot, path) := hb
    obtain ⟨_, hmid, hlast⟩ := bfsAux_accept_shallowest tfuel accept reject tr
      ([], start, inp) ms.toNat 0 emptyParent 0 dn tot path hb'
    refine ⟨dn, h2.symm, fun k hk c hcmem => ?_, hlast⟩
    have hnone := hmid k (Nat.zero_le k) hk
    rw [List.find?_eq_none] at hnone
    have := hnone c hcmem
    simpa using this

/-- Witness for claim C1 on a machine accepting immediately at depth 0. -/
theorem bfs_accepted_shallowest_witness :
    bfs 0 "q0" ["q0"] "qr" emptyTable [] 1 =
      some (true, 0, 0, [([], "q0", [])]) ∧
    ∃ dn : Nat, (0 : Int) = dn ∧
      (∀ k, k < dn →
        ∀ c ∈ levelFrontier ["q0"] "qr" emptyTable ([], "q0", []) k,
          (["q0"] : List String).contains c.2.1 = false) ∧
      (levelFrontier ["q0"] "qr" emptyTable ([], "q0", []) dn).find?
          (fun c => (["q0"] : List String).contains c.2.1) =
        ([([], "q0", ([] : List Char))]).getLast? :=
  ⟨rfl,
    bfs_accepted_shallowest 0 "q0" ["q0"] "qr" emptyTable [] 1 0 0
      [([], "q0", [])] rfl⟩

end TraceTM
